import Mathlib

/-!
Shallow embedding of `Unused_Funtion_Detector.py` (an unused-function
detector for Python projects) and proofs about it.

The program walks every parsed syntax tree of a project, collecting

* function/method definitions as `(qualified_name, filename, lineno)`
  triples, qualifying only by the enclosing-class-name stack
  (`FunctionDefCollector`), and
* every name referenced in a `Load` context, including the trailing
  attribute of `obj.attr` accesses (`NameUsageCollector`),

then reports every non-excluded definition whose simple name (the last
dot-segment of its qualified name) is absent from the project-wide usage
set, sorted by `(filename, lineno)`.

The embedding models the syntax tree as a mutual inductive (the parser is
an external collaborator), Python string operations (`str.split`,
`str.startswith`, `str.endswith`, `str.join`, code-point comparison) at
the character-list level, and Python's stable `sorted` by a key as an
insertion sort with the corresponding lexicographic relation (both are
stable sorts, hence extensionally equal).
-/

namespace UnusedFunctionDetector

/-- Expression context of a Python AST `Name`/`Attribute` node:
`ast.Load` (read), `ast.Store` (assignment target), `ast.Del` (deletion
target). -/
inductive Ctx : Type where
  | load
  | store
  | del
deriving DecidableEq, Repr

mutual

/-- A parsed syntax-tree node, restricted to the node kinds the two
collectors dispatch on.  `classDef`, `functionDef` and
`asyncFunctionDef` carry their body (and any other child nodes);
`nameNode` is `ast.Name` with its context; `attribute` is
`ast.Attribute` with its base expression, trailing attribute and
context; `importFrom` models `import`/`from … import …` statements,
whose `alias` children contain no `Name` nodes; every other node kind
is `other`, through which the generic visit just recurses into the
children. -/
inductive Node : Type where
  | classDef (name : String) (body : NodeList)
  | functionDef (name : String) (lineno : Nat) (body : NodeList)
  | asyncFunctionDef (name : String) (lineno : Nat) (body : NodeList)
  | nameNode (id : String) (ctx : Ctx)
  | attribute (value : Node) (attr : String) (ctx : Ctx)
  | importFrom (module : String) (aliases : List String)
  | other (children : NodeList)

/-- A list of sibling nodes (a node body, or a whole module body). -/
inductive NodeList : Type where
  | nil
  | cons (head : Node) (tail : NodeList)

end

/-- Converts a Lean list of nodes into a `NodeList` body. -/
def NodeList.ofList : List Node → NodeList
  | [] => .nil
  | n :: ns => .cons n (NodeList.ofList ns)

/-- Python's `s.split(".")` on the underlying character list: splits at
every separator occurrence, keeping empty segments (`"".split(".") ==
[""]`, `"a..b".split(".") == ["a", "", "b"]`). -/
def splitOnChar (sep : Char) : List Char → List (List Char)
  | [] => [[]]
  | c :: cs =>
    match splitOnChar sep cs with
    | [] => [[]]
    | seg :: rest => if c = sep then [] :: seg :: rest else (c :: seg) :: rest

/-- Python's `qualified_name.split(".")`. -/
def splitDot (s : String) : List String :=
  (splitOnChar '.' s.data).map fun cs => ⟨cs⟩

/-- Python's `".".join(parts)`. -/
def joinDot (parts : List String) : String :=
  ⟨List.intercalate ['.'] (parts.map String.data)⟩

/-- Python's `s.startswith(p)`. -/
def strStartsWith (s p : String) : Bool :=
  List.isPrefixOf p.data s.data

/-- Python's `s.endswith(p)`. -/
def strEndsWith (s p : String) : Bool :=
  List.isSuffixOf p.data s.data

/-- The simple name: `qualified_name.split(".")[-1]`. -/
def simple_name_of (qualified_name : String) : String :=
  (splitDot qualified_name).getLastD ""

mutual

/-- `FunctionDefCollector.visit` with the current `_class_stack`:
`visit_ClassDef` pushes the class name for the class body;
`visit_FunctionDef` records `(qualified_name, filename, lineno)` — the
class stack joined with the function's own name by `"."` when the stack
is non-empty, the bare name otherwise — and then `generic_visit`s the
body under the unchanged stack; `visit_AsyncFunctionDef` delegates to
`visit_FunctionDef`; every other node is traversed generically. -/
def collectDefs (filename : String) (stack : List String) : Node → List (String × String × Nat)
  | .classDef name body => collectDefsList filename (stack ++ [name]) body
  | .functionDef name lineno body =>
    (if stack.isEmpty then name else joinDot (stack ++ [name]), filename, lineno) ::
      collectDefsList filename stack body
  | .asyncFunctionDef name lineno body =>
    (if stack.isEmpty then name else joinDot (stack ++ [name]), filename, lineno) ::
      collectDefsList filename stack body
  | .nameNode _ _ => []
  | .attribute value _ _ => collectDefs filename stack value
  | .importFrom _ _ => []
  | .other children => collectDefsList filename stack children

/-- `collectDefs` over a node body, in order. -/
def collectDefsList (filename : String) (stack : List String) : NodeList → List (String × String × Nat)
  | .nil => []
  | .cons n ns => collectDefs filename stack n ++ collectDefsList filename stack ns

end

mutual

/-- `NameUsageCollector.visit`: `visit_Name` adds `node.id` when the
context is `Load`; `visit_Attribute` adds `node.attr` when the context
is `Load` and generic-visits the base expression; everything else is
traversed generically (import aliases contain no `Name` nodes, so
`importFrom` contributes nothing). -/
def usedNames : Node → Finset String
  | .classDef _ body => usedNamesList body
  | .functionDef _ _ body => usedNamesList body
  | .asyncFunctionDef _ _ body => usedNamesList body
  | .nameNode id ctx => if ctx = .load then {id} else ∅
  | .attribute value attr ctx => (if ctx = .load then {attr} else ∅) ∪ usedNames value
  | .importFrom _ _ => ∅
  | .other children => usedNamesList children

/-- `usedNames` over a node body. -/
def usedNamesList : NodeList → Finset String
  | .nil => ∅
  | .cons n ns => usedNames n ∪ usedNamesList ns

end

/-- The outcome of reading and parsing one project file: the file path
together with either its parsed module body or the error message of a
read/parse failure. -/
abbrev PyFile := String × Except String NodeList

/-- `analyze_project` over the discovered files: per file, a read or
parse failure is reported (path and cause, here returned as the third
component in place of the printed diagnostics) and the file is skipped;
otherwise both collectors run and their results are merged into the
project-wide definitions list and usage set. -/
def analyze_project : List PyFile → List (String × String × Nat) × Finset String × List (String × String)
  | [] => ([], ∅, [])
  | (path, .error e) :: rest =>
    let r := analyze_project rest
    (r.1, r.2.1, (path, e) :: r.2.2)
  | (path, .ok tree) :: rest =>
    let r := analyze_project rest
    (collectDefsList path [] tree ++ r.1, usedNamesList tree ∪ r.2.1, r.2.2)

/-- `is_excluded(qualified_name)`: dunder simple names (start and end
with `"__"`), and `handle`/`add_arguments` methods of a class named
`Command`. -/
def is_excluded (qualified_name : String) : Bool :=
  let parts := splitDot qualified_name
  let simple_name := parts.getLastD ""
  if strStartsWith simple_name "__" && strEndsWith simple_name "__" then
    true
  else if decide (2 ≤ parts.length) && (parts.headD "" == "Command") &&
      (simple_name == "handle" || simple_name == "add_arguments") then
    true
  else
    false

/-- The `unused_functions` loop of `main`: keep, in collection order,
every definition that is not excluded and whose simple name is absent
from `used_names`. -/
def unused_functions (definitions : List (String × String × Nat)) (used_names : Finset String) :
    List (String × String × Nat) :=
  definitions.filter fun d => !is_excluded d.1 && decide (simple_name_of d.1 ∉ used_names)

/-- Python's code-point-lexicographic string comparison `<`, on the
underlying character lists. -/
def charListLt : List Char → List Char → Bool
  | _, [] => false
  | [], _ :: _ => true
  | a :: as, b :: bs => if a < b then true else if b < a then false else charListLt as bs

/-- The sort key comparison of `main`'s report: `(x[1], x[2]) <= (y[1],
y[2])`, i.e. lexicographic on `(filename, lineno)` with Python string
comparison. -/
def defnLE (a b : String × String × Nat) : Prop :=
  charListLt a.2.1.data b.2.1.data = true ∨ (a.2.1 = b.2.1 ∧ a.2.2 ≤ b.2.2)

instance : DecidableRel defnLE := fun a b => by
  unfold defnLE
  infer_instance

/-- `sorted(unused_functions, key=lambda x: (x[1], x[2]))`: Python's
`sorted` is a stable sort by the key; insertion sort with the
corresponding total preorder is also stable, hence extensionally the
same function. -/
def report (definitions : List (String × String × Nat)) (used_names : Finset String) :
    List (String × String × Nat) :=
  List.insertionSort defnLE (unused_functions definitions used_names)

/-- The whole pipeline of `main` on already-read files: analyze the
project, then compute the sorted unused report. -/
def run_detector (files : List PyFile) : List (String × String × Nat) :=
  let r := analyze_project files
  report r.1 r.2.1

mutual

/-- Every node of a tree: the node itself and, recursively, all nodes of
its children. -/
def subnodes : Node → List Node
  | .classDef name body => .classDef name body :: subnodesList body
  | .functionDef name lineno body => .functionDef name lineno body :: subnodesList body
  | .asyncFunctionDef name lineno body => .asyncFunctionDef name lineno body :: subnodesList body
  | .nameNode id ctx => [.nameNode id ctx]
  | .attribute value attr ctx => .attribute value attr ctx :: subnodes value
  | .importFrom module aliases => [.importFrom module aliases]
  | .other children => .other children :: subnodesList children

/-- All nodes of a node body. -/
def subnodesList : NodeList → List Node
  | .nil => []
  | .cons n ns => subnodes n ++ subnodesList ns

end

/-- A node puts the string `x` into the usage set exactly when it is a
read-context identifier with text `x` or a read-context attribute access
whose trailing attribute is `x`. -/
def contributes (x : String) (n : Node) : Prop :=
  n = Node.nameNode x Ctx.load ∨ ∃ v, n = Node.attribute v x Ctx.load

/-! Helper lemmas. -/

theorem splitOnChar_ne_nil (sep : Char) (cs : List Char) : splitOnChar sep cs ≠ [] := by
  cases cs with
  | nil => simp [splitOnChar]
  | cons c cs =>
    simp only [splitOnChar]
    rcases h : splitOnChar sep cs with _ | ⟨seg, rest⟩
    · simp
    · by_cases hc : c = sep <;> simp [hc]

theorem splitDot_ne_nil (s : String) : splitDot s ≠ [] := by
  intro h
  exact splitOnChar_ne_nil '.' s.data (by simpa [splitDot] using h)

theorem splitOnChar_of_not_mem {sep : Char} {cs : List Char} (h : sep ∉ cs) :
    splitOnChar sep cs = [cs] := by
  induction cs with
  | nil => rfl
  | cons c cs ih =>
    have hc : c ≠ sep := fun hEq => h (hEq ▸ List.mem_cons_self c cs)
    have hcs : sep ∉ cs := fun hm => h (List.mem_cons_of_mem c hm)
    simp [splitOnChar, ih hcs, hc]

theorem splitDot_no_dot {s : String} (h : '.' ∉ s.data) : splitDot s = [s] := by
  simp [splitDot, splitOnChar_of_not_mem h]

theorem simple_name_of_no_dot {s : String} (h : '.' ∉ s.data) : simple_name_of s = s := by
  simp [simple_name_of, splitDot_no_dot h]

theorem mem_report_iff (definitions : List (String × String × Nat)) (used_names : Finset String)
    (d : String × String × Nat) :
    d ∈ report definitions used_names ↔
      d ∈ definitions ∧ (!is_excluded d.1 && decide (simple_name_of d.1 ∉ used_names)) = true := by
  unfold report unused_functions
  rw [(List.perm_insertionSort defnLE _).mem_iff]
  exact List.mem_filter

theorem charListLt_trans :
    ∀ (a b c : List Char), charListLt a b = true → charListLt b c = true → charListLt a c = true := by
  intro a
  induction a with
  | nil =>
    intro b c hab hbc
    cases c with
    | nil =>
      cases b with
      | nil => simp [charListLt] at hab
      | cons y ys => simp [charListLt] at hbc
    | cons z zs => simp [charListLt]
  | cons x xs ih =>
    intro b c hab hbc
    cases b with
    | nil => simp [charListLt] at hab
    | cons y ys =>
      cases c with
      | nil => simp [charListLt] at hbc
      | cons z zs =>
        simp only [charListLt] at hab hbc ⊢
        rcases lt_trichotomy x y with hxy | hxy | hxy
        · rcases lt_trichotomy y z with hyz | hyz | hyz
          · rw [if_pos (lt_trans hxy hyz)]
          · rw [if_pos (hyz ▸ hxy)]
          · rw [if_neg (lt_asymm hyz), if_pos hyz] at hbc
            simp at hbc
        · subst hxy
          rcases lt_trichotomy x z with hxz | hxz | hxz
          · rw [if_pos hxz]
          · subst hxz
            rw [if_neg (lt_irrefl x), if_neg (lt_irrefl x)] at hab hbc ⊢
            exact ih _ _ hab hbc
          · rw [if_neg (lt_asymm hxz), if_pos hxz] at hbc
            simp at hbc
        · rw [if_neg (lt_asymm hxy), if_pos hxy] at hab
          simp at hab

theorem charListLt_connex :
    ∀ (a b : List Char), charListLt a b = true ∨ a = b ∨ charListLt b a = true := by
  intro a
  induction a with
  | nil =>
    intro b
    cases b with
    | nil => exact Or.inr (Or.inl rfl)
    | cons y ys => exact Or.inl (by simp [charListLt])
  | cons x xs ih =>
    intro b
    cases b with
    | nil => exact Or.inr (Or.inr (by simp [charListLt]))
    | cons y ys =>
      rcases lt_trichotomy x y with hxy | hxy | hxy
      · exact Or.inl (by simp [charListLt, hxy])
      · subst hxy
        rcases ih ys with h | h | h
        · exact Or.inl (by simp [charListLt, h])
        · exact Or.inr (Or.inl (by rw [h]))
        · exact Or.inr (Or.inr (by simp [charListLt, h]))
      · exact Or.inr (Or.inr (by simp [charListLt, hxy]))

instance : IsTrans (String × String × Nat) defnLE := by
  constructor
  intro a b c hab hbc
  rcases hab with hab | ⟨hab1, hab2⟩
  · rcases hbc with hbc | ⟨hbc1, _⟩
    · exact Or.inl (charListLt_trans _ _ _ hab hbc)
    · exact Or.inl (hbc1 ▸ hab)
  · rcases hbc with hbc | ⟨hbc1, hbc2⟩
    · exact Or.inl (hab1 ▸ hbc)
    · exact Or.inr ⟨hab1.trans hbc1, hab2.trans hbc2⟩

instance : IsTotal (String × String × Nat) defnLE := by
  constructor
  intro a b
  rcases charListLt_connex a.2.1.data b.2.1.data with h | h | h
  · exact Or.inl (Or.inl h)
  · have hs : a.2.1 = b.2.1 := congrArg String.mk h
    rcases Nat.le_total a.2.2 b.2.2 with hn | hn
    · exact Or.inl (Or.inr ⟨hs, hn⟩)
    · exact Or.inr (Or.inr ⟨hs.symm, hn⟩)
  · exact Or.inr (Or.inl h)

theorem exists_mem_cons_of_not {α : Type} {p : α → Prop} {a : α} {l : List α} (ha : ¬p a) :
    (∃ m, m ∈ a :: l ∧ p m) ↔ (∃ m, m ∈ l ∧ p m) := by
  constructor
  · rintro ⟨m, hm, hp⟩
    rcases List.mem_cons.mp hm with rfl | hm
    · exact absurd hp ha
    · exact ⟨m, hm, hp⟩
  · rintro ⟨m, hm, hp⟩
    exact ⟨m, List.mem_cons_of_mem a hm, hp⟩

mutual

theorem mem_usedNames_iff (x : String) :
    (n : Node) → (x ∈ usedNames n ↔ ∃ m, m ∈ subnodes n ∧ contributes x m)
  | .classDef name body => by
    rw [usedNames, subnodes, mem_usedNamesList_iff x body,
      exists_mem_cons_of_not (by simp [contributes])]
  | .functionDef name lineno body => by
    rw [usedNames, subnodes, mem_usedNamesList_iff x body,
      exists_mem_cons_of_not (by simp [contributes])]
  | .asyncFunctionDef name lineno body => by
    rw [usedNames, subnodes, mem_usedNamesList_iff x body,
      exists_mem_cons_of_not (by simp [contributes])]
  | .nameNode id ctx => by
    cases ctx <;> simp [usedNames, subnodes, contributes, eq_comm]
  | .attribute value attr ctx => by
    have ih := mem_usedNames_iff x value
    cases ctx <;>
      simp [usedNames, subnodes, contributes, ih, eq_comm, exists_eq_or_imp, or_and_right,
        exists_or]
  | .importFrom module aliases => by
    simp [usedNames, subnodes, contributes]
  | .other children => by
    rw [usedNames, subnodes, mem_usedNamesList_iff x children,
      exists_mem_cons_of_not (by simp [contributes])]

theorem mem_usedNamesList_iff (x : String) :
    (t : NodeList) → (x ∈ usedNamesList t ↔ ∃ m, m ∈ subnodesList t ∧ contributes x m)
  | .nil => by simp [usedNamesList, subnodesList]
  | .cons n ns => by
    rw [usedNamesList, subnodesList]
    simp only [Finset.mem_union, List.mem_append, or_and_right, exists_or]
    rw [mem_usedNames_iff x n, mem_usedNamesList_iff x ns]

end

theorem is_excluded_eq (qn : String) :
    is_excluded qn =
      ((strStartsWith (simple_name_of qn) "__" && strEndsWith (simple_name_of qn) "__") ||
        (decide (2 ≤ (splitDot qn).length) && ((splitDot qn).headD "" == "Command") &&
          (simple_name_of qn == "handle" || simple_name_of qn == "add_arguments"))) := by
  simp only [is_excluded, simple_name_of]
  cases strStartsWith ((splitDot qn).getLastD "") "__" &&
      strEndsWith ((splitDot qn).getLastD "") "__" <;>
    cases decide (2 ≤ (splitDot qn).length) && ((splitDot qn).headD "" == "Command") &&
        ((splitDot qn).getLastD "" == "handle" || (splitDot qn).getLastD "" == "add_arguments") <;>
      simp

theorem two_le_splitDot_length {qn : String} (hcmd : (splitDot qn).headD "" = "Command")
    (hs : (splitDot qn).getLastD "" = "handle" ∨ (splitDot qn).getLastD "" = "add_arguments") :
    2 ≤ (splitDot qn).length := by
  rcases h : splitDot qn with _ | ⟨a, t⟩
  · exact absurd h (splitDot_ne_nil qn)
  · rcases t with _ | ⟨b, t⟩
    · rw [h] at hcmd hs
      simp at hcmd hs
      subst hcmd
      rcases hs with hs | hs <;> exact absurd hs (by decide)
    · simp only [List.length_cons]
      omega

/-! The claims. -/

/-- C1: for every collected definition that the exclusion predicate does
not exclude, it appears in the unused report iff its simple name is
absent from the project-wide usage set; in particular, a method
`Foo.bar` is judged used whenever any reference to the bare name `bar`
occurs anywhere in the project. -/
theorem unused_report_membership :
    (∀ (definitions : List (String × String × Nat)) (used_names : Finset String)
      (d : String × String × Nat), d ∈ definitions → is_excluded d.1 = false →
      (d ∈ report definitions used_names ↔ simple_name_of d.1 ∉ used_names)) ∧
    (∀ (definitions : List (String × String × Nat)) (used_names : Finset String)
      (f : String) (l : Nat), ("Foo.bar", f, l) ∈ definitions → "bar" ∈ used_names →
      ("Foo.bar", f, l) ∉ report definitions used_names) := by
  constructor
  · intro definitions used_names d hmem hexc
    rw [mem_report_iff]
    simp [hmem, hexc]
  · intro definitions used_names f l hmem hused
    rw [mem_report_iff]
    have h1 : is_excluded "Foo.bar" = false := by decide
    have h2 : simple_name_of "Foo.bar" = "bar" := by decide
    simp only [h1, h2, Bool.not_false, Bool.true_and, decide_eq_true_eq]
    rintro ⟨-, hcontra⟩
    exact hcontra hused

/-- C1 witness: a lone unreferenced top-level function is in the report,
and a `Foo.bar` definition with a project-wide reference to `bar` is
not. -/
theorem unused_report_membership_witness :
    (("f", "a.py", 1) ∈ report [("f", "a.py", 1)] ∅ ↔
      simple_name_of "f" ∉ (∅ : Finset String)) ∧
    ("Foo.bar", "a.py", 1) ∉ report [("Foo.bar", "a.py", 1)] {"bar"} :=
  ⟨unused_report_membership.1 [("f", "a.py", 1)] ∅ ("f", "a.py", 1) (by decide) (by decide),
    unused_report_membership.2 [("Foo.bar", "a.py", 1)] {"bar"} "a.py" 1 (by decide) (by decide)⟩

/-- C2: the exclusion predicate holds iff the simple name is a dunder
name (starts and ends with `"__"`) or the first dot-segment is
`"Command"` and the simple name is `"handle"` or `"add_arguments"`;
consequently `__init__` and `Command.handle` definitions are never
reported as unused, while an unreferenced `Command` method outside the
exclusion set is reported. -/
theorem is_excluded_characterization :
    (∀ qualified_name : String,
      is_excluded qualified_name = true ↔
        (strStartsWith (simple_name_of qualified_name) "__" = true ∧
          strEndsWith (simple_name_of qualified_name) "__" = true) ∨
        ((splitDot qualified_name).headD "" = "Command" ∧
          (simple_name_of qualified_name = "handle" ∨
            simple_name_of qualified_name = "add_arguments"))) ∧
    (∀ (definitions : List (String × String × Nat)) (used_names : Finset String)
      (qn f : String) (l : Nat), (qn, f, l) ∈ definitions →
      simple_name_of qn = "__init__" → (qn, f, l) ∉ report definitions used_names) ∧
    (∀ (definitions : List (String × String × Nat)) (used_names : Finset String)
      (f : String) (l : Nat), ("Command.handle", f, l) ∈ definitions →
      ("Command.handle", f, l) ∉ report definitions used_names) ∧
    (∀ (definitions : List (String × String × Nat)) (used_names : Finset String)
      (f : String) (l : Nat), ("Command.run", f, l) ∈ definitions → "run" ∉ used_names →
      ("Command.run", f, l) ∈ report definitions used_names) := by
  refine ⟨fun qn => ?_, fun definitions used_names qn f l hmem hsn => ?_,
    fun definitions used_names f l hmem => ?_, fun definitions used_names f l hmem hused => ?_⟩
  · rw [is_excluded_eq]
    simp only [Bool.or_eq_true, Bool.and_eq_true, decide_eq_true_eq, beq_iff_eq]
    constructor
    · rintro (⟨h1, h2⟩ | ⟨⟨_, hcmd⟩, hs⟩)
      · exact Or.inl ⟨h1, h2⟩
      · exact Or.inr ⟨hcmd, hs⟩
    · rintro (⟨h1, h2⟩ | ⟨hcmd, hs⟩)
      · exact Or.inl ⟨h1, h2⟩
      · exact Or.inr ⟨⟨two_le_splitDot_length hcmd hs, hcmd⟩, hs⟩
  · have hex : is_excluded qn = true := by
      rw [is_excluded_eq, hsn]
      have h1 : (strStartsWith "__init__" "__" && strEndsWith "__init__" "__") = true := by decide
      simp [h1]
    rw [mem_report_iff]
    simp [hex]
  · have hex : is_excluded "Command.handle" = true := by decide
    rw [mem_report_iff]
    simp [hex]
  · have hex : is_excluded "Command.run" = false := by decide
    have hsn : simple_name_of "Command.run" = "run" := by decide
    rw [mem_report_iff]
    exact ⟨hmem, by simp [hex, hsn, decide_eq_true hused]⟩

/-- C2 witness: concrete instances — an unreferenced `Foo.__init__` and
`Command.handle` stay out of the report, an unreferenced `Command.run`
is in it. -/
theorem is_excluded_characterization_witness :
    ("Foo.__init__", "a.py", 3) ∉ report [("Foo.__init__", "a.py", 3)] ∅ ∧
    ("Command.handle", "b.py", 4) ∉ report [("Command.handle", "b.py", 4)] ∅ ∧
    ("Command.run", "c.py", 5) ∈ report [("Command.run", "c.py", 5)] ∅ :=
  ⟨is_excluded_characterization.2.1 [("Foo.__init__", "a.py", 3)] ∅ "Foo.__init__" "a.py" 3
      (by decide) (by decide),
    is_excluded_characterization.2.2.1 [("Command.handle", "b.py", 4)] ∅ "b.py" 4 (by decide),
    is_excluded_characterization.2.2.2 [("Command.run", "c.py", 5)] ∅ "c.py" 5 (by decide)
      (by decide)⟩

/-- C3: the definition collector records each function or method
definition (asynchronous variants identically to synchronous) under the
enclosing-class-name stack joined with `"."` and the function's own
name; only class nesting extends the stack, traversal continues into
function bodies, and a function nested in a function with no enclosing
class is recorded under its own bare name. -/
theorem collectDefs_qualification :
    (∀ (filename : String) (stack : List String) (name : String) (lineno : Nat) (body : NodeList),
      collectDefs filename stack (.asyncFunctionDef name lineno body) =
        collectDefs filename stack (.functionDef name lineno body)) ∧
    (∀ (filename : String) (stack : List String) (name : String) (lineno : Nat) (body : NodeList),
      collectDefs filename stack (.functionDef name lineno body) =
        ((if stack.isEmpty then name else joinDot (stack ++ [name])), filename, lineno) ::
          collectDefsList filename stack body) ∧
    (∀ (filename : String) (stack : List String) (name : String) (body : NodeList),
      collectDefs filename stack (.classDef name body) =
        collectDefsList filename (stack ++ [name]) body) ∧
    (∀ (filename name : String) (lineno : Nat) (name2 : String) (lineno2 : Nat) (body : NodeList),
      collectDefs filename [] (.functionDef name lineno
          (.cons (.functionDef name2 lineno2 body) .nil)) =
        (name, filename, lineno) :: (name2, filename, lineno2) ::
          collectDefsList filename [] body) := by
  refine ⟨fun _ _ _ _ _ => rfl, fun _ _ _ _ _ => rfl, fun _ _ _ _ => rfl,
    fun filename name lineno name2 lineno2 body => ?_⟩
  simp [collectDefs, collectDefsList]

/-- C4: the usage collector's set contains exactly the texts of plain
identifiers in a read (`Load`) context and the trailing attribute names
of attribute accesses in a read context; write and deletion contexts
contribute nothing. -/
theorem usedNames_characterization (t : NodeList) (x : String) :
    x ∈ usedNamesList t ↔
      ∃ n, n ∈ subnodesList t ∧
        (n = Node.nameNode x Ctx.load ∨ ∃ v, n = Node.attribute v x Ctx.load) := by
  simpa only [contributes] using mem_usedNamesList_iff x t

/-- C5: the unused report is sorted ascending by `(source_file, line)`,
its contents are exactly the filtered unused definitions, and permuting
the insertion order of the collected definitions only permutes (never
changes) those contents. -/
theorem report_sorted (definitions : List (String × String × Nat)) (used_names : Finset String) :
    List.Sorted defnLE (report definitions used_names) ∧
    (report definitions used_names).Perm (unused_functions definitions used_names) ∧
    ∀ definitions' : List (String × String × Nat), definitions.Perm definitions' →
      (report definitions used_names).Perm (report definitions' used_names) := by
  refine ⟨List.sorted_insertionSort defnLE _, List.perm_insertionSort defnLE _, ?_⟩
  intro definitions' hperm
  exact (List.perm_insertionSort defnLE _).trans
    ((hperm.filter _).trans (List.perm_insertionSort defnLE _).symm)

/-- C5 witness: the report over two definitions collected in reversed
order is a permutation of the report over the original order. -/
theorem report_sorted_witness :
    (report [("g", "b.py", 2), ("f", "a.py", 1)] ∅).Perm
      (report [("f", "a.py", 1), ("g", "b.py", 2)] ∅) :=
  (report_sorted [("g", "b.py", 2), ("f", "a.py", 1)] ∅).2.2
    [("f", "a.py", 1), ("g", "b.py", 2)]
    (List.Perm.swap ("f", "a.py", 1) ("g", "b.py", 2) [])

/-- C6: a failing file is reported with its path and cause, contributes
nothing to the definitions sequence or the usage set, and the remaining
files are still processed. -/
theorem analyze_project_error_recovery (pre post : List PyFile) (path e : String) :
    (analyze_project (pre ++ (path, Except.error e) :: post)).1 =
      (analyze_project (pre ++ post)).1 ∧
    (analyze_project (pre ++ (path, Except.error e) :: post)).2.1 =
      (analyze_project (pre ++ post)).2.1 ∧
    (path, e) ∈ (analyze_project (pre ++ (path, Except.error e) :: post)).2.2 := by
  induction pre with
  | nil => exact ⟨rfl, rfl, List.mem_cons_self _ _⟩
  | cons f rest ih =>
    obtain ⟨p, c⟩ := f
    cases c with
    | error err => exact ⟨ih.1, ih.2.1, List.mem_cons_of_mem _ ih.2.2⟩
    | ok tree =>
      exact ⟨congrArg (collectDefsList p [] tree ++ ·) ih.1,
        congrArg (usedNamesList tree ∪ ·) ih.2.1, ih.2.2⟩

/-- C7: permuting the order in which files are processed leaves the
definitions multiset and the usage set unchanged. -/
theorem analyze_project_perm_invariant (files₁ files₂ : List PyFile) (h : files₁.Perm files₂) :
    (analyze_project files₁).1.Perm (analyze_project files₂).1 ∧
    (analyze_project files₁).2.1 = (analyze_project files₂).2.1 := by
  induction h with
  | nil => exact ⟨List.Perm.refl _, rfl⟩
  | cons f h ih =>
    obtain ⟨p, c⟩ := f
    cases c with
    | error err => exact ⟨ih.1, ih.2⟩
    | ok tree => exact ⟨ih.1.append_left _, congrArg (usedNamesList tree ∪ ·) ih.2⟩
  | swap x y l =>
    obtain ⟨px, cx⟩ := x
    obtain ⟨py, cy⟩ := y
    cases cx with
    | error ex =>
      cases cy with
      | error ey => exact ⟨List.Perm.refl _, rfl⟩
      | ok ty => exact ⟨List.Perm.refl _, rfl⟩
    | ok tx =>
      cases cy with
      | error ey => exact ⟨List.Perm.refl _, rfl⟩
      | ok ty =>
        constructor
        · simp only [analyze_project]
          have hp := (@List.perm_append_comm _ (collectDefsList py [] ty)
            (collectDefsList px [] tx)).append_right (analyze_project l).1
          rw [List.append_assoc, List.append_assoc] at hp
          exact hp
        · simp only [analyze_project]
          exact Finset.union_left_comm _ _ _
  | trans h1 h2 ih1 ih2 => exact ⟨ih1.1.trans ih2.1, ih1.2.trans ih2.2⟩

/-- Concrete example file `a.py`, containing one function definition
`def f(): …`. -/
def fileA : PyFile := ("a.py", Except.ok (.cons (.functionDef "f" 1 .nil) .nil))

/-- Concrete example file `b.py`, containing one read of the name
`g`. -/
def fileB : PyFile := ("b.py", Except.ok (.cons (.nameNode "g" .load) .nil))

/-- C7 witness: swapping two concrete files changes neither the
definitions multiset nor the usage set. -/
theorem analyze_project_perm_invariant_witness :
    (analyze_project [fileA, fileB]).1.Perm (analyze_project [fileB, fileA]).1 ∧
    (analyze_project [fileA, fileB]).2.1 = (analyze_project [fileB, fileA]).2.1 :=
  analyze_project_perm_invariant [fileA, fileB] [fileB, fileA] (List.Perm.swap fileB fileA [])

/-- C8: import statements contribute nothing to the usage set (import
aliases are not identifier nodes in a read context), so a function
whose simple name occurs only as an import alias is still reported as
unused. -/
theorem import_alias_not_used :
    (∀ (module : String) (aliases : List String),
      usedNames (.importFrom module aliases) = ∅) ∧
    run_detector [("a.py", Except.ok (.cons (.functionDef "helper" 1 .nil) .nil)),
        ("b.py", Except.ok (.cons (.importFrom "a" ["helper"]) .nil))] =
      [("helper", "a.py", 1)] :=
  ⟨fun _ _ => rfl, by decide⟩

/-- C9: a function definition by itself never marks its own name as
used (the usage set of the definition node is that of its body), but a
read-context occurrence of the name anywhere, including a recursive
call in the function's own body, does; hence a function whose only
reference is a recursive call to itself is never reported as unused. -/
theorem recursive_call_marks_used :
    (∀ (name : String) (lineno : Nat) (body : NodeList),
      usedNames (.functionDef name lineno body) = usedNamesList body) ∧
    (∀ (f file : String) (lineno : Nat), '.' ∉ f.data → is_excluded f = false →
      run_detector [(file, Except.ok (.cons (.functionDef f lineno
          (.cons (.other (.cons (.nameNode f .load) .nil)) .nil)) .nil))] = []) := by
  refine ⟨fun _ _ _ => rfl, fun f file lineno hdot hexc => ?_⟩
  simp [run_detector, analyze_project, report, unused_functions, collectDefsList, collectDefs,
    usedNamesList, usedNames, simple_name_of_no_dot hdot, hexc, List.insertionSort]

/-- C9 witness: a function whose body calls itself recursively is
absent from the unused report. -/
theorem recursive_call_marks_used_witness :
    run_detector [("m.py", Except.ok (.cons (.functionDef "loop" 2
        (.cons (.other (.cons (.nameNode "loop" .load) .nil)) .nil)) .nil))] = [] :=
  recursive_call_marks_used.2 "loop" "m.py" 2 (by decide) (by decide)

/-- C10: a name occurring only as a deletion (`Del` context) target is
not added to the usage set — only read-context occurrences count — so a
function whose name is only ever deleted is still reported as
unused. -/
theorem del_target_not_used :
    (∀ id : String, usedNames (.nameNode id .del) = ∅) ∧
    (∀ (f file : String) (lineno : Nat), '.' ∉ f.data → is_excluded f = false →
      run_detector [(file, Except.ok (.cons (.functionDef f lineno .nil)
          (.cons (.other (.cons (.nameNode f .del) .nil)) .nil)))] =
        [(f, file, lineno)]) := by
  refine ⟨fun _ => rfl, fun f file lineno hdot hexc => ?_⟩
  simp [run_detector, analyze_project, report, unused_functions, collectDefsList, collectDefs,
    usedNamesList, usedNames, simple_name_of_no_dot hdot, hexc, List.insertionSort,
    List.orderedInsert]

/-- C10 witness: a function whose name occurs only as a `del` target is
reported as unused. -/
theorem del_target_not_used_witness :
    run_detector [("m.py", Except.ok (.cons (.functionDef "cleanup" 3 .nil)
        (.cons (.other (.cons (.nameNode "cleanup" .del) .nil)) .nil)))] =
      [("cleanup", "m.py", 3)] :=
  del_target_not_used.2 "cleanup" "m.py" 3 (by decide) (by decide)

end UnusedFunctionDetector
